import Mathlib

/-
  Shallow embedding of the CHIP-8 emulator core in src/chip8.c.

  Conventions of the embedding:
  - C uint8 cells stored in arrays (ram, V, stack contents) are modelled as
    Nat-valued maps; every store truncates with % 256 (uint8 assignment) and
    every load of a uint8 array cell applies % 256 (the uint8 type invariant).
  - The uint16 scalar fields PC and I truncate with % 65536 at each write.
  - The C stack pointer (a raw pointer into uint16 stack[12]) is modelled as
    the integer offset sp from the base of the array, so that the unchecked
    pointer arithmetic of the source (including moves below the base and past
    the end) is visible in the model.
  - config.window_width = 64 and config.window_height = 32 are the constants
    installed by set_config and never overridden.
  - rand() is modelled as an explicit input rnd to the execution function.
-/

namespace Chip8Emu

/-- Run-control states of the emulator (emulator_state_t); the zero
initialisation of the machine struct corresponds to QUIT. -/
inductive EmuState where
  | QUIT
  | RUNNING
  | PAUSED
deriving DecidableEq

/-- The chip8_t machine object of src/chip8.c (the fields the core
mutates; the SDL handles and the rom name are omitted). -/
structure Chip8 where
  state : EmuState
  ram : Nat → Nat
  display : Nat → Bool
  stack : Int → Nat
  sp : Int
  V : Nat → Nat
  PC : Nat
  I : Nat
  delay_timer : Nat
  sound_timer : Nat
  keypad : Nat → Bool
  draw : Bool

/-- Pointwise update of a Nat-indexed map. -/
def updf (f : Nat → Nat) (i v : Nat) : Nat → Nat :=
  fun k => if k = i then v else f k

/-- Pointwise update of an Int-indexed map. -/
def updi (f : Int → Nat) (i : Int) (v : Nat) : Int → Nat :=
  fun k => if k = i then v else f k

/-- One iteration of the inner DXYN column loop body: XOR sprite bit j into
the display cell at (X, Y) and record a collision in the flag accumulator. -/
def drawStep (sprite Y X j : Nat) (disp : Nat → Bool) (vf : Nat) :
    (Nat → Bool) × Nat :=
  let bit := Nat.testBit sprite j
  let idx := Y * 64 + X
  (fun k => if k = idx then xor (disp k) bit else disp k,
   if bit && disp idx then 1 else vf)

/-- The inner DXYN loop: for j from 7 down to 0, draw bit j at column X,
advance X, and stop once the incremented X reaches 64 (clip, no wrap).
The check mirrors the source: the cell is written first, then the
increment-and-break test runs. -/
def drawRow (sprite Y X : Nat) : Nat → (Nat → Bool) → Nat → (Nat → Bool) × Nat
  | 0, disp, vf => drawStep sprite Y X 0 disp vf
  | j + 1, disp, vf =>
    let p := drawStep sprite Y X (j + 1) disp vf
    if X + 1 ≥ 64 then p else drawRow sprite Y (X + 1) j p.1 p.2

/-- The outer DXYN loop: rem rows remain, row i uses sprite byte ram[I+i]
drawn at row Y starting from column orgX; after each row the incremented Y
is tested against 32 (clip, no wrap). -/
def drawRows (ram : Nat → Nat) (I orgX : Nat) :
    Nat → Nat → Nat → (Nat → Bool) → Nat → (Nat → Bool) × Nat
  | 0, _, _, disp, vf => (disp, vf)
  | rem + 1, i, Y, disp, vf =>
    let sprite := ram (I + i) % 256
    let p := drawRow sprite Y orgX 7 disp vf
    if Y + 1 ≥ 32 then p else drawRows ram I orgX rem (i + 1) (Y + 1) p.1 p.2

/-- The FX55 loop: for rem more registers starting at index i, store V[i]
into ram[I+i]. -/
def regsToRam (V : Nat → Nat) (I : Nat) : Nat → (Nat → Nat) → Nat → Nat → Nat
  | _, ram, 0 => ram
  | i, ram, rem + 1 =>
    regsToRam V I (i + 1) (fun k => if k = I + i then V i % 256 else ram k) rem

/-- The FX65 loop: for rem more registers starting at index i, load V[i]
from ram[I+i]. -/
def ramToRegs (ram : Nat → Nat) (I : Nat) : Nat → (Nat → Nat) → Nat → Nat → Nat
  | _, V, 0 => V
  | i, V, rem + 1 =>
    ramToRegs ram I (i + 1) (fun k => if k = i then ram (I + i) % 256 else V k) rem

/-- The FX0A scan loop: the first index i (scanning rem slots upward from i)
whose keypad entry is down, if any. -/
def firstDownAux (keys : Nat → Bool) : Nat → Nat → Option Nat
  | _, 0 => none
  | i, rem + 1 => if keys i then some i else firstDownAux keys (i + 1) rem

/-- Instruction fetch: chip8->ram[PC] << 8 | chip8->ram[PC+1]; on the byte
values of the two cells the shift-or is exactly hi * 256 + lo. -/
def fetch (s : Chip8) : Nat :=
  (s.ram s.PC % 256) * 256 + s.ram (s.PC + 1) % 256

/-- The opcode dispatch of emulate_chip8, applied to the post-fetch state
(PC already advanced past the instruction).  rnd is the value returned by
rand() for a CXNN instruction. -/
def execute (rnd opcode : Nat) (s : Chip8) : Chip8 :=
  let NNN := opcode % 4096
  let NN := opcode % 256
  let N := opcode % 16
  let X := opcode / 256 % 16
  let Y := opcode / 16 % 16
  if opcode / 4096 % 16 = 0 then
    if NN = 0xE0 then
      { s with display := fun _ => false, draw := true }
    else if NN = 0xEE then
      -- chip8->PC = *--chip8->stack_ptr : unchecked pointer decrement
      { s with PC := s.stack (s.sp - 1) % 65536, sp := s.sp - 1 }
    else s
  else if opcode / 4096 % 16 = 1 then
    { s with PC := NNN }
  else if opcode / 4096 % 16 = 2 then
    -- *chip8->stack_ptr++ = chip8->PC : unchecked pointer increment
    { s with stack := updi s.stack s.sp (s.PC % 65536), sp := s.sp + 1, PC := NNN }
  else if opcode / 4096 % 16 = 3 then
    if s.V X % 256 = NN then { s with PC := (s.PC + 2) % 65536 } else s
  else if opcode / 4096 % 16 = 4 then
    if s.V X % 256 ≠ NN then { s with PC := (s.PC + 2) % 65536 } else s
  else if opcode / 4096 % 16 = 5 then
    if s.V X % 256 = s.V Y % 256 then { s with PC := (s.PC + 2) % 65536 } else s
  else if opcode / 4096 % 16 = 6 then
    { s with V := updf s.V X (NN % 256) }
  else if opcode / 4096 % 16 = 7 then
    { s with V := updf s.V X ((s.V X % 256 + NN) % 256) }
  else if opcode / 4096 % 16 = 8 then
    if N = 0 then { s with V := updf s.V X (s.V Y % 256) }
    else if N = 1 then { s with V := updf s.V X ((s.V X % 256 ||| s.V Y % 256) % 256) }
    else if N = 2 then { s with V := updf s.V X ((s.V X % 256 &&& s.V Y % 256) % 256) }
    else if N = 3 then { s with V := updf s.V X ((s.V X % 256 ^^^ s.V Y % 256) % 256) }
    else if N = 4 then
      -- V[0xF] = (V[Y] > 0xFF - V[X]); then V[X] += V[Y]
      let s1 := { s with V := updf s.V 15 (if s.V Y % 256 > 255 - s.V X % 256 then 1 else 0) }
      { s1 with V := updf s1.V X ((s1.V X % 256 + s1.V Y % 256) % 256) }
    else if N = 5 then
      let s1 := { s with V := updf s.V 15 (if s.V Y % 256 ≤ s.V X % 256 then 1 else 0) }
      { s1 with V := updf s1.V X ((s1.V X % 256 + 256 - s1.V Y % 256) % 256) }
    else if N = 6 then
      let s1 := { s with V := updf s.V 15 (s.V X % 256 % 2) }
      { s1 with V := updf s1.V X (s1.V X % 256 / 2) }
    else if N = 7 then
      let s1 := { s with V := updf s.V 15 (if s.V X % 256 ≤ s.V Y % 256 then 1 else 0) }
      { s1 with V := updf s1.V X ((s1.V Y % 256 + 256 - s1.V X % 256) % 256) }
    else if N = 0xE then
      let s1 := { s with V := updf s.V 15 (s.V X % 256 / 128) }
      { s1 with V := updf s1.V X (s1.V X % 256 * 2 % 256) }
    else s
  else if opcode / 4096 % 16 = 9 then
    if s.V X % 256 ≠ s.V Y % 256 then { s with PC := (s.PC + 2) % 65536 } else s
  else if opcode / 4096 % 16 = 10 then
    { s with I := NNN }
  else if opcode / 4096 % 16 = 11 then
    { s with PC := (s.V 0 % 256 + NNN) % 65536 }
  else if opcode / 4096 % 16 = 12 then
    { s with V := updf s.V X ((rnd % 256 &&& NN) % 256) }
  else if opcode / 4096 % 16 = 13 then
    let Xc := s.V X % 256 % 64
    let Yc := s.V Y % 256 % 32
    let p := drawRows s.ram s.I Xc N 0 Yc s.display 0
    { s with display := p.1, V := updf s.V 15 p.2, draw := true }
  else if opcode / 4096 % 16 = 14 then
    if NN = 0x9E then
      if s.keypad (s.V X % 256 % 16) then { s with PC := (s.PC + 2) % 65536 } else s
    else if NN = 0xA1 then
      if ¬ s.keypad (s.V X % 256 % 16) then { s with PC := (s.PC + 2) % 65536 } else s
    else s
  else if opcode / 4096 % 16 = 15 then
    if NN = 0x07 then
      { s with V := updf s.V X (s.delay_timer % 256) }
    else if NN = 0x0A then
      -- The source initialises key_pressed to true; the scan loop assigns
      -- true again when it finds a down key, so key_pressed is never false
      -- and the PC rewind below can never run.
      let key_pressed := true
      let scan := firstDownAux s.keypad 0 16
      let s1 := match scan with
                | some i => { s with V := updf s.V X (i % 256) }
                | none => s
      let key_pressed2 := match scan with
                | some _ => true
                | none => key_pressed
      if key_pressed2 = false then { s1 with PC := (s1.PC + 65534) % 65536 } else s1
    else if NN = 0x15 then
      { s with delay_timer := s.V X % 256 }
    else if NN = 0x18 then
      { s with sound_timer := s.V X % 256 }
    else if NN = 0x1E then
      { s with I := (s.I + s.V X % 256) % 65536 }
    else if NN = 0x29 then
      { s with I := s.V X % 256 % 16 * 5 % 65536 }
    else if NN = 0x33 then
      let value := s.V X % 256
      let ram1 := updf s.ram (s.I + 2) (value % 10 % 256)
      let ram2 := updf ram1 (s.I + 1) (value / 10 % 10 % 256)
      { s with ram := updf ram2 s.I (value / 10 / 10 % 256) }
    else if NN = 0x55 then
      { s with ram := regsToRam s.V s.I 0 s.ram (X + 1) }
    else if NN = 0x65 then
      { s with V := ramToRegs s.ram s.I 0 s.V (X + 1) }
    else s
  else s

/-- One call of emulate_chip8: fetch the opcode at PC, advance PC by 2,
then dispatch. -/
def emulate_chip8 (rnd : Nat) (s : Chip8) : Chip8 :=
  execute rnd (fetch s) { s with PC := (s.PC + 2) % 65536 }

/-- The zero-initialised machine struct (chip8_t chip8 = {0} in main). -/
def emptyChip8 : Chip8 :=
  { state := EmuState.QUIT
    ram := fun _ => 0
    display := fun _ => false
    stack := fun _ => 0
    sp := 0
    V := fun _ => 0
    PC := 0
    I := 0
    delay_timer := 0
    sound_timer := 0
    keypad := fun _ => false
    draw := false }

/-- Equality of two machine states on every component except the program
counter. -/
def nonPCEq (a b : Chip8) : Prop :=
  a.state = b.state ∧ a.ram = b.ram ∧ a.display = b.display ∧ a.stack = b.stack ∧
  a.sp = b.sp ∧ a.V = b.V ∧ a.I = b.I ∧ a.delay_timer = b.delay_timer ∧
  a.sound_timer = b.sound_timer ∧ a.keypad = b.keypad ∧ a.draw = b.draw

/-- The postcondition of the 8XY4 carry law for a post-fetch state s:
the flag register holds 1 exactly when the byte sum overflows, and
register X holds the wrapped sum. -/
def Add8Post (s t : Chip8) (X Y : Nat) : Prop :=
  (t.V 15 = 1 ↔ s.V X % 256 + s.V Y % 256 > 255) ∧
  t.V X % 256 = (s.V X % 256 + s.V Y % 256) % 256

/-- C8: for every post-fetch machine state and register selectors X, Y other
than the flag register, executing 8XY4 sets V[F] to 1 exactly when the byte
values of V[X] and V[Y] sum above 255, and V[X] to the sum modulo 256; the
embedded dispatch writes the flag before the sum, as the source does. -/
theorem c8_8xy4_carry (s : Chip8) (X Y : Nat) (rnd : Nat)
    (hX : X < 16) (hY : Y < 16) (hXF : X ≠ 15) (hYF : Y ≠ 15) :
    Add8Post s (execute rnd ((128 + X) * 256 + (16 * Y + 4)) s) X Y := by
  have h1 : ((128 + X) * 256 + (16 * Y + 4)) / 4096 % 16 = 8 := by omega
  have h2 : ((128 + X) * 256 + (16 * Y + 4)) % 16 = 4 := by omega
  have h3 : ((128 + X) * 256 + (16 * Y + 4)) / 256 % 16 = X := by omega
  have h4 : ((128 + X) * 256 + (16 * Y + 4)) / 16 % 16 = Y := by omega
  have h15X : (15 : Nat) ≠ X := fun h => hXF h.symm
  simp only [execute, h1, h2, h3, h4, Add8Post]
  norm_num [updf, h15X, hXF, hYF]
  constructor <;> omega

/-- Witness for C8 at a concrete state and selectors. -/
theorem c8_8xy4_carry_witness :
    Add8Post emptyChip8 (execute 0 ((128 + 3) * 256 + (16 * 4 + 4)) emptyChip8) 3 4 :=
  c8_8xy4_carry emptyChip8 3 4 0 (by decide) (by decide) (by decide) (by decide)

/-- C10: CXNN with NN = 0 zeroes V[X] whatever rand() returned, and two runs
with different random draws produce identical machine states. -/
theorem c10_cx00_deterministic (s : Chip8) (X : Nat) (r1 r2 : Nat) (hX : X < 16) :
    (execute r1 ((192 + X) * 256) s).V X = 0 ∧
    execute r1 ((192 + X) * 256) s = execute r2 ((192 + X) * 256) s := by
  have h1 : (192 + X) * 256 / 4096 % 16 = 12 := by omega
  have h2 : (192 + X) * 256 % 256 = 0 := by omega
  have h3 : (192 + X) * 256 / 256 % 16 = X := by omega
  simp only [execute, h1, h2, h3]
  norm_num [updf, Nat.and_zero]

/-- Witness for C10 at a concrete state, selector and random draws. -/
theorem c10_cx00_deterministic_witness :
    (execute 7 ((192 + 2) * 256) emptyChip8).V 2 = 0 ∧
    execute 7 ((192 + 2) * 256) emptyChip8 = execute 99 ((192 + 2) * 256) emptyChip8 :=
  c10_cx00_deterministic emptyChip8 2 7 99 (by decide)

/-- The postcondition of FX33 for a post-fetch state s: the three bytes at
I, I+1, I+2 are decimal digits recombining to the byte value of V[X], all
other ram cells, every register and I itself are unchanged. -/
def BcdPost (s t : Chip8) (X : Nat) : Prop :=
  t.ram s.I ≤ 9 ∧ t.ram (s.I + 1) ≤ 9 ∧ t.ram (s.I + 2) ≤ 9 ∧
  t.ram s.I * 100 + t.ram (s.I + 1) * 10 + t.ram (s.I + 2) = s.V X % 256 ∧
  (∀ k, k ≠ s.I → k ≠ s.I + 1 → k ≠ s.I + 2 → t.ram k = s.ram k) ∧
  t.V = s.V ∧ t.I = s.I

/-- C6: for every post-fetch machine state, executing FX33 writes the
hundreds, tens and units decimal digits of the byte value of V[X] to
ram[I], ram[I+1], ram[I+2], changes no other ram cell, and changes no
register. -/
theorem c6_fx33_bcd (s : Chip8) (X : Nat) (rnd : Nat)
    (hX : X < 16) (hI : s.I + 2 < 4096) :
    BcdPost s (execute rnd ((240 + X) * 256 + 0x33) s) X := by
  have h1 : ((240 + X) * 256 + 0x33) / 4096 % 16 = 15 := by omega
  have h2 : ((240 + X) * 256 + 0x33) % 256 = 0x33 := by omega
  have h3 : ((240 + X) * 256 + 0x33) / 256 % 16 = X := by omega
  have hv := Nat.mod_lt (s.V X) (show 0 < 256 by norm_num)
  simp only [execute, h1, h2, h3, BcdPost]
  norm_num [updf]
  refine ⟨by omega, by omega, by omega, by omega, ?_⟩
  intro k hk0 hk1 hk2
  simp [hk0, hk1, hk2]

/-- Witness for C6 at a concrete state and selector. -/
theorem c6_fx33_bcd_witness :
    BcdPost emptyChip8 (execute 0 ((240 + 1) * 256 + 0x33) emptyChip8) 1 :=
  c6_fx33_bcd emptyChip8 1 0 (by decide) (by decide)

/-- The postcondition of the skip-complementarity law: sE is the machine
after the equality-form skip, sN after the inequality form; cond is the
equality being tested.  Exactly one of the two adds 2 to the post-fetch
PC, the other leaves it, and neither touches anything but PC. -/
def SkipPost (s sE sN : Chip8) (cond : Prop) : Prop :=
  (cond → sE.PC = (s.PC + 2) % 65536 ∧ sN.PC = s.PC) ∧
  (¬ cond → sE.PC = s.PC ∧ sN.PC = (s.PC + 2) % 65536) ∧
  nonPCEq sE s ∧ nonPCEq sN s

/-- C9: from one post-fetch state, 3XNN and 4XNN skip on exactly
complementary conditions, and 5XY0 and 9XY0 likewise; none of the four
modifies any state component other than PC. -/
theorem c9_skip_complement (s : Chip8) (X Y NN : Nat) (rnd : Nat)
    (hX : X < 16) (hY : Y < 16) (hNN : NN < 256) :
    SkipPost s (execute rnd ((48 + X) * 256 + NN) s)
      (execute rnd ((64 + X) * 256 + NN) s) (s.V X % 256 = NN) ∧
    SkipPost s (execute rnd ((80 + X) * 256 + 16 * Y) s)
      (execute rnd ((144 + X) * 256 + 16 * Y) s) (s.V X % 256 = s.V Y % 256) := by
  have h31 : ((48 + X) * 256 + NN) / 4096 % 16 = 3 := by omega
  have h32 : ((48 + X) * 256 + NN) % 256 = NN := by omega
  have h33 : ((48 + X) * 256 + NN) / 256 % 16 = X := by omega
  have h41 : ((64 + X) * 256 + NN) / 4096 % 16 = 4 := by omega
  have h42 : ((64 + X) * 256 + NN) % 256 = NN := by omega
  have h43 : ((64 + X) * 256 + NN) / 256 % 16 = X := by omega
  have h51 : ((80 + X) * 256 + 16 * Y) / 4096 % 16 = 5 := by omega
  have h53 : ((80 + X) * 256 + 16 * Y) / 256 % 16 = X := by omega
  have h54 : ((80 + X) * 256 + 16 * Y) / 16 % 16 = Y := by omega
  have h91 : ((144 + X) * 256 + 16 * Y) / 4096 % 16 = 9 := by omega
  have h93 : ((144 + X) * 256 + 16 * Y) / 256 % 16 = X := by omega
  have h94 : ((144 + X) * 256 + 16 * Y) / 16 % 16 = Y := by omega
  simp only [execute, h31, h32, h33, h41, h42, h43, h51, h53, h54, h91, h93, h94,
    SkipPost, nonPCEq]
  norm_num
  constructor
  · by_cases hc : s.V X % 256 = NN <;> simp [hc]
  · by_cases hc : s.V X % 256 = s.V Y % 256 <;> simp [hc]

/-- Witness for C9 at a concrete state and fields. -/
theorem c9_skip_complement_witness :
    SkipPost emptyChip8 (execute 0 ((48 + 0) * 256 + 5) emptyChip8)
      (execute 0 ((64 + 0) * 256 + 5) emptyChip8) (emptyChip8.V 0 % 256 = 5) ∧
    SkipPost emptyChip8 (execute 0 ((80 + 0) * 256 + 16 * 1) emptyChip8)
      (execute 0 ((144 + 0) * 256 + 16 * 1) emptyChip8)
      (emptyChip8.V 0 % 256 = emptyChip8.V 1 % 256) :=
  c9_skip_complement emptyChip8 0 1 5 0 (by decide) (by decide) (by decide)

/-- Cells outside the written window of the FX55 loop keep their ram value. -/
theorem regsToRam_out (V : Nat → Nat) (I : Nat) :
    ∀ rem i ram k, (k < I + i ∨ I + i + rem ≤ k) → regsToRam V I i ram rem k = ram k := by
  intro rem
  induction rem with
  | zero => intro i ram k _; rfl
  | succ rem ih =>
    intro i ram k hk
    show regsToRam V I (i + 1) _ rem k = ram k
    rw [ih (i + 1) _ k (by omega)]
    have : k ≠ I + i := by omega
    simp [this]

/-- Cell I+i+t of the FX55 loop output holds the byte value of V[i+t]. -/
theorem regsToRam_at (V : Nat → Nat) (I : Nat) :
    ∀ rem i ram t, t < rem → regsToRam V I i ram rem (I + i + t) = V (i + t) % 256 := by
  intro rem
  induction rem with
  | zero => intro i ram t ht; omega
  | succ rem ih =>
    intro i ram t ht
    match t with
    | 0 =>
      show regsToRam V I (i + 1) _ rem (I + i + 0) = V (i + 0) % 256
      rw [regsToRam_out V I rem (i + 1) _ (I + i + 0) (by omega)]
      simp
    | t + 1 =>
      have h2 : I + i + (t + 1) = I + (i + 1) + t := by omega
      have h3 : i + (t + 1) = i + 1 + t := by omega
      rw [h2, h3]
      exact ih (i + 1) _ t (by omega)

/-- Registers outside the written window of the FX65 loop keep their value. -/
theorem ramToRegs_out (ram : Nat → Nat) (I : Nat) :
    ∀ rem i V k, (k < i ∨ i + rem ≤ k) → ramToRegs ram I i V rem k = V k := by
  intro rem
  induction rem with
  | zero => intro i V k _; rfl
  | succ rem ih =>
    intro i V k hk
    show ramToRegs ram I (i + 1) _ rem k = V k
    rw [ih (i + 1) _ k (by omega)]
    have : k ≠ i := by omega
    simp [this]

/-- Register i+t of the FX65 loop output holds the byte value of ram[I+i+t]. -/
theorem ramToRegs_at (ram : Nat → Nat) (I : Nat) :
    ∀ rem i V t, t < rem → ramToRegs ram I i V rem (i + t) = ram (I + (i + t)) % 256 := by
  intro rem
  induction rem with
  | zero => intro i V t ht; omega
  | succ rem ih =>
    intro i V t ht
    match t with
    | 0 =>
      show ramToRegs ram I (i + 1) _ rem (i + 0) = ram (I + (i + 0)) % 256
      rw [ramToRegs_out ram I rem (i + 1) _ (i + 0) (by omega)]
      simp
    | t + 1 =>
      have h3 : i + (t + 1) = i + 1 + t := by omega
      rw [h3]
      exact ih (i + 1) _ t (by omega)

/-- The postcondition of the FX55/FX65 round trip: s is the post-fetch state
before FX55, s1 after FX55, s2 after the following FX65.  FX55 copied the
bytes of V[0..X] to ram[I..I+X], neither instruction moved I, FX55 left the
registers alone, and after FX65 every register holds its original value. -/
def SaveRestorePost (s s1 s2 : Chip8) (X : Nat) : Prop :=
  (∀ i, i ≤ X → s1.ram (s.I + i) = s.V i) ∧
  s1.I = s.I ∧ s2.I = s.I ∧ s1.V = s.V ∧
  (∀ i, s2.V i = s.V i)

/-- C7: for every register selector X, every byte-valued register file and
every I, FX55 followed by FX65 stores V[0..X] at ram[I..I+X] and then
restores every register exactly, with I unmodified by both instructions. -/
theorem c7_fx55_fx65_roundtrip (s : Chip8) (X : Nat) (rnd rnd2 : Nat)
    (hX : X < 16) (hI : s.I + X < 4096) (hb : ∀ i, i < 16 → s.V i < 256) :
    SaveRestorePost s (execute rnd ((240 + X) * 256 + 0x55) s)
      (execute rnd2 ((240 + X) * 256 + 0x65)
        (execute rnd ((240 + X) * 256 + 0x55) s)) X := by
  have h1 : ((240 + X) * 256 + 0x55) / 4096 % 16 = 15 := by omega
  have h2 : ((240 + X) * 256 + 0x55) % 256 = 0x55 := by omega
  have h3 : ((240 + X) * 256 + 0x55) / 256 % 16 = X := by omega
  have g1 : ((240 + X) * 256 + 0x65) / 4096 % 16 = 15 := by omega
  have g2 : ((240 + X) * 256 + 0x65) % 256 = 0x65 := by omega
  have g3 : ((240 + X) * 256 + 0x65) / 256 % 16 = X := by omega
  simp only [execute, h1, h2, h3, g1, g2, g3, SaveRestorePost]
  norm_num
  refine ⟨?_, ?_⟩
  · intro i hi
    have := regsToRam_at s.V s.I (X + 1) 0 s.ram i (by omega)
    simp only [Nat.add_zero, Nat.zero_add] at this
    rw [this, Nat.mod_eq_of_lt (hb i (by omega))]
  · intro i
    by_cases hi : i ≤ X
    · have := ramToRegs_at (regsToRam s.V s.I 0 s.ram (X + 1)) s.I (X + 1) 0 s.V i (by omega)
      simp only [Nat.zero_add] at this
      rw [this]
      have h4 := regsToRam_at s.V s.I (X + 1) 0 s.ram i (by omega)
      simp only [Nat.add_zero, Nat.zero_add] at h4
      rw [h4]
      have := hb i (by omega)
      omega
    · exact ramToRegs_out _ s.I (X + 1) 0 s.V i (by omega)

/-- Witness for C7 at a concrete state and selector. -/
theorem c7_fx55_fx65_roundtrip_witness :
    SaveRestorePost emptyChip8 (execute 0 ((240 + 15) * 256 + 0x55) emptyChip8)
      (execute 0 ((240 + 15) * 256 + 0x65)
        (execute 0 ((240 + 15) * 256 + 0x55) emptyChip8)) 15 :=
  c7_fx55_fx65_roundtrip emptyChip8 15 0 0 (by decide) (by decide)
    (fun i _ => by simp [emptyChip8])

/-- A cell other than the addressed one is untouched by one column step. -/
theorem drawStep_other (sprite Y X j : Nat) (disp : Nat → Bool) (vf k : Nat)
    (hk : k ≠ Y * 64 + X) : (drawStep sprite Y X j disp vf).1 k = disp k := by
  simp [drawStep, hk]

/-- Any cell changed by the inner DXYN loop lies in row Y at a column
between the starting column X and 63. -/
theorem drawRow_changes (sprite Y : Nat) :
    ∀ j X disp vf k, X ≤ 63 → (drawRow sprite Y X j disp vf).1 k ≠ disp k →
      ∃ x, X ≤ x ∧ x ≤ 63 ∧ k = Y * 64 + x := by
  intro j
  induction j with
  | zero =>
    intro X disp vf k hX hne
    by_cases hk : k = Y * 64 + X
    · exact ⟨X, Nat.le_refl X, hX, hk⟩
    · exact absurd (drawStep_other sprite Y X 0 disp vf k hk) hne
  | succ j ih =>
    intro X disp vf k hX hne
    rw [drawRow] at hne
    by_cases hbr : X + 1 ≥ 64
    · rw [if_pos hbr] at hne
      by_cases hk : k = Y * 64 + X
      · exact ⟨X, Nat.le_refl X, hX, hk⟩
      · exact absurd (drawStep_other sprite Y X (j + 1) disp vf k hk) hne
    · rw [if_neg hbr] at hne
      by_cases hk : k = Y * 64 + X
      · exact ⟨X, Nat.le_refl X, hX, hk⟩
      · have h2 := drawStep_other sprite Y X (j + 1) disp vf k hk
        rcases ih (X + 1) _ _ k (by omega) (by rw [← h2] at hne; exact hne) with
          ⟨x, hx1, hx2, hx3⟩
        exact ⟨x, by omega, hx2, hx3⟩

/-- Any cell changed by the DXYN row loop lies in a row between the starting
row Y and 31, at a column between orgX and 63. -/
theorem drawRows_changes (ram : Nat → Nat) (I orgX : Nat) :
    ∀ rem i Y disp vf k, orgX ≤ 63 → Y ≤ 31 →
      (drawRows ram I orgX rem i Y disp vf).1 k ≠ disp k →
      ∃ x y, orgX ≤ x ∧ x ≤ 63 ∧ Y ≤ y ∧ y ≤ 31 ∧ k = y * 64 + x := by
  intro rem
  induction rem with
  | zero => intro i Y disp vf k _ _ hne; exact absurd rfl hne
  | succ rem ih =>
    intro i Y disp vf k hX hY hne
    rw [drawRows] at hne
    by_cases hbr : Y + 1 ≥ 32
    · rw [if_pos hbr] at hne
      rcases drawRow_changes _ Y 7 orgX disp vf k hX hne with ⟨x, hx1, hx2, hx3⟩
      exact ⟨x, Y, hx1, hx2, Nat.le_refl Y, hY, hx3⟩
    · rw [if_neg hbr] at hne
      by_cases hk : (drawRow (ram (I + i) % 256) Y orgX 7 disp vf).1 k = disp k
      · rcases ih (i + 1) (Y + 1) _ _ k hX (by omega) (by rw [← hk] at hne; exact hne) with
          ⟨x, y, hx1, hx2, hy1, hy2, hk3⟩
        exact ⟨x, y, hx1, hx2, by omega, hy2, hk3⟩
      · rcases drawRow_changes _ Y 7 orgX disp vf k hX hk with ⟨x, hx1, hx2, hx3⟩
        exact ⟨x, Y, hx1, hx2, Nat.le_refl Y, hY, hx3⟩

/-- The clipping postcondition of DXYN for a post-fetch state s: a changed
display cell lies at or right of the wrapped origin column, at or below the
wrapped origin row, and inside the 64 by 32 grid. -/
def ClipPost (s t : Chip8) (X Y : Nat) : Prop :=
  ∀ k, t.display k ≠ s.display k →
    s.V X % 256 % 64 ≤ k % 64 ∧ k % 64 ≤ 63 ∧
    s.V Y % 256 % 32 ≤ k / 64 ∧ k / 64 ≤ 31 ∧ k < 2048

/-- C4: for every post-fetch machine state, a DXYN draw can only change
display cells inside the box from the wrapped origin to the right and
bottom edges of the 64 by 32 grid: columns past X=63 and rows past Y=31
are clipped, never wrapped, and no cell outside the grid is written. -/
theorem c4_dxyn_clipping (s : Chip8) (X Y N : Nat) (rnd : Nat)
    (hX : X < 16) (hY : Y < 16) (hN : N < 16) :
    ClipPost s (execute rnd ((208 + X) * 256 + (16 * Y + N)) s) X Y := by
  have h1 : ((208 + X) * 256 + (16 * Y + N)) / 4096 % 16 = 13 := by omega
  have h2 : ((208 + X) * 256 + (16 * Y + N)) % 16 = N := by omega
  have h3 : ((208 + X) * 256 + (16 * Y + N)) / 256 % 16 = X := by omega
  have h4 : ((208 + X) * 256 + (16 * Y + N)) / 16 % 16 = Y := by omega
  simp only [execute, h1, h2, h3, h4, ClipPost]
  norm_num
  intro k hne
  have hx0 : s.V X % 64 ≤ 63 := by omega
  have hy0 : s.V Y % 32 ≤ 31 := by omega
  rcases drawRows_changes s.ram s.I (s.V X % 64) N 0 (s.V Y % 32)
      s.display 0 k hx0 hy0 hne with ⟨x, y, hx1, hx2, hy1, hy2, hk⟩
  subst hk
  constructor
  · omega
  · constructor
    · omega
    · omega

/-- Witness for C4 at a concrete state and instruction fields. -/
theorem c4_dxyn_clipping_witness :
    ClipPost emptyChip8 (execute 0 ((208 + 0) * 256 + (16 * 1 + 5)) emptyChip8) 0 1 :=
  c4_dxyn_clipping emptyChip8 0 1 5 0 (by decide) (by decide) (by decide)

/-- Cells outside the column window of the inner DXYN loop keep their value. -/
theorem drawRow_out (sprite Y : Nat) :
    ∀ j X disp vf k, (k < Y * 64 + X ∨ Y * 64 + X + j < k) →
      (drawRow sprite Y X j disp vf).1 k = disp k := by
  intro j
  induction j with
  | zero =>
    intro X disp vf k hk
    exact drawStep_other sprite Y X 0 disp vf k (by omega)
  | succ j ih =>
    intro X disp vf k hk
    rw [drawRow]
    by_cases hbr : X + 1 ≥ 64
    · rw [if_pos hbr]
      exact drawStep_other sprite Y X (j + 1) disp vf k (by omega)
    · rw [if_neg hbr]
      rw [ih (X + 1) _ _ k (by omega)]
      exact drawStep_other sprite Y X (j + 1) disp vf k (by omega)

/-- In the unclipped case, the inner DXYN loop XORs sprite bit j - t into
the cell at column X + t. -/
theorem drawRow_in (sprite Y : Nat) :
    ∀ j X t disp vf, X + j ≤ 63 → t ≤ j →
      (drawRow sprite Y X j disp vf).1 (Y * 64 + X + t)
        = xor (disp (Y * 64 + X + t)) (Nat.testBit sprite (j - t)) := by
  intro j
  induction j with
  | zero =>
    intro X t disp vf hX ht
    have ht0 : t = 0 := by omega
    subst ht0
    simp [drawRow, drawStep]
  | succ j ih =>
    intro X t disp vf hX ht
    rw [drawRow]
    rw [if_neg (by omega : ¬ X + 1 ≥ 64)]
    match t with
    | 0 =>
      rw [drawRow_out sprite Y j (X + 1) _ _ (Y * 64 + X + 0) (by omega)]
      simp [drawStep]
    | t + 1 =>
      have h1 : Y * 64 + X + (t + 1) = Y * 64 + (X + 1) + t := by omega
      rw [h1, ih (X + 1) t _ _ (by omega) (by omega),
        drawStep_other sprite Y X (j + 1) disp vf _ (by omega)]
      have h2 : j + 1 - (t + 1) = j - t := by omega
      rw [h2]

/-- Once the collision flag is 1 the inner loop keeps it at 1. -/
theorem drawRow_vf_stays (sprite Y : Nat) :
    ∀ j X disp, (drawRow sprite Y X j disp 1).2 = 1 := by
  intro j
  induction j with
  | zero => intro X disp; simp [drawRow, drawStep]
  | succ j ih =>
    intro X disp
    rw [drawRow]
    have hp : (drawStep sprite Y X (j + 1) disp 1).2 = 1 := by simp [drawStep]
    by_cases hbr : X + 1 ≥ 64
    · rw [if_pos hbr]; exact hp
    · rw [if_neg hbr, hp]; exact ih (X + 1) _

/-- In the unclipped case a set sprite bit over a lit cell drives the
collision flag to 1. -/
theorem drawRow_vf_hit (sprite Y : Nat) :
    ∀ j X t disp vf, X + j ≤ 63 → t ≤ j → Nat.testBit sprite (j - t) = true →
      disp (Y * 64 + X + t) = true → (drawRow sprite Y X j disp vf).2 = 1 := by
  intro j
  induction j with
  | zero =>
    intro X t disp vf hX ht hbit hd
    have ht0 : t = 0 := by omega
    subst ht0
    simp only [Nat.add_zero] at hd
    simp [drawRow, drawStep, hbit, hd]
  | succ j ih =>
    intro X t disp vf hX ht hbit hd
    rw [drawRow]
    rw [if_neg (by omega : ¬ X + 1 ≥ 64)]
    match t with
    | 0 =>
      simp only [Nat.add_zero] at hd
      simp only [Nat.sub_zero] at hbit
      have hp : (drawStep sprite Y X (j + 1) disp vf).2 = 1 := by
        simp [drawStep, hbit, hd]
      rw [hp]
      exact drawRow_vf_stays sprite Y j (X + 1) _
    | t + 1 =>
      refine ih (X + 1) t _ _ (by omega) (by omega) ?_ ?_
      · have h2 : j - t = j + 1 - (t + 1) := by omega
        rw [h2]; exact hbit
      · rw [drawStep_other sprite Y X (j + 1) disp vf _ (by omega)]
        have h3 : Y * 64 + (X + 1) + t = Y * 64 + X + (t + 1) := by omega
        rw [h3]; exact hd

/-- With no set sprite bit over a lit cell in the window, the inner loop
leaves the collision flag alone. -/
theorem drawRow_vf_miss (sprite Y : Nat) :
    ∀ j X disp vf,
      (∀ t, t ≤ j →
        ¬(Nat.testBit sprite (j - t) = true ∧ disp (Y * 64 + X + t) = true)) →
      (drawRow sprite Y X j disp vf).2 = vf := by
  intro j
  induction j with
  | zero =>
    intro X disp vf h
    rw [drawRow]
    show (if (Nat.testBit sprite 0 && disp (Y * 64 + X)) = true then 1 else vf) = vf
    rw [if_neg]
    rw [Bool.and_eq_true]
    intro hc
    exact h 0 (Nat.le_refl 0) ⟨hc.1, hc.2⟩
  | succ j ih =>
    intro X disp vf h
    rw [drawRow]
    have hstep : (drawStep sprite Y X (j + 1) disp vf).2 = vf := by
      show (if (Nat.testBit sprite (j + 1) && disp (Y * 64 + X)) = true then 1 else vf) = vf
      rw [if_neg]
      rw [Bool.and_eq_true]
      intro hc
      exact h 0 (by omega) ⟨hc.1, hc.2⟩
    by_cases hbr : X + 1 ≥ 64
    · rw [if_pos hbr]; exact hstep
    · rw [if_neg hbr, hstep]
      refine ih (X + 1) _ vf ?_
      intro t htj hcontra
      rcases hcontra with ⟨hb, hdisp⟩
      rw [drawStep_other sprite Y X (j + 1) disp vf _ (by omega)] at hdisp
      refine h (t + 1) (by omega) ⟨?_, ?_⟩
      · have h2 : j + 1 - (t + 1) = j - t := by omega
        rw [h2]; exact hb
      · have h3 : Y * 64 + X + (t + 1) = Y * 64 + (X + 1) + t := by omega
        rw [h3]; exact hdisp

/-- Cells outside every processed row window keep their value across the
DXYN row loop. -/
theorem drawRows_out (ram : Nat → Nat) (I orgX : Nat) :
    ∀ rem i Y disp vf k,
      (∀ r, r < rem → k < (Y + r) * 64 + orgX ∨ (Y + r) * 64 + orgX + 7 < k) →
      (drawRows ram I orgX rem i Y disp vf).1 k = disp k := by
  intro rem
  induction rem with
  | zero => intro i Y disp vf k _; rfl
  | succ rem ih =>
    intro i Y disp vf k h
    rw [drawRows]
    have h0 := h 0 (by omega)
    by_cases hbr : Y + 1 ≥ 32
    · rw [if_pos hbr]
      exact drawRow_out _ Y 7 orgX disp vf k (by omega)
    · rw [if_neg hbr]
      rw [ih (i + 1) (Y + 1) _ _ k (by intro r hr; have h2 := h (r + 1) (by omega); omega)]
      exact drawRow_out _ Y 7 orgX disp vf k (by omega)

/-- In the unclipped case, the DXYN row loop XORs bit 7 - t of sprite byte
ram[I+i+r] into the cell at row Y + r, column orgX + t. -/
theorem drawRows_in (ram : Nat → Nat) (I orgX : Nat) :
    ∀ rem i Y disp vf r t, Y + rem ≤ 32 → orgX + 7 ≤ 63 → r < rem → t ≤ 7 →
      (drawRows ram I orgX rem i Y disp vf).1 ((Y + r) * 64 + orgX + t)
        = xor (disp ((Y + r) * 64 + orgX + t))
            (Nat.testBit (ram (I + i + r) % 256) (7 - t)) := by
  intro rem
  induction rem with
  | zero => intro i Y disp vf r t _ _ hr _; omega
  | succ rem ih =>
    intro i Y disp vf r t hY hX hr ht
    rw [drawRows]
    by_cases hbr : Y + 1 ≥ 32
    · rw [if_pos hbr]
      have hr0 : r = 0 := by omega
      subst hr0
      simp only [Nat.add_zero]
      exact drawRow_in _ Y 7 orgX t disp vf (by omega) ht
    · rw [if_neg hbr]
      match r with
      | 0 =>
        simp only [Nat.add_zero]
        rw [drawRows_out ram I orgX rem (i + 1) (Y + 1) _ _ _
          (by intro q hq; left; omega)]
        exact drawRow_in _ Y 7 orgX t disp vf (by omega) ht
      | r + 1 =>
        have heq1 : Y + (r + 1) = Y + 1 + r := by omega
        have heq2 : I + i + (r + 1) = I + (i + 1) + r := by omega
        rw [heq1, heq2, ih (i + 1) (Y + 1) _ _ r t (by omega) hX (by omega) ht]
        rw [drawRow_out _ Y 7 orgX disp vf _ (by omega)]

/-- Once the collision flag is 1 the row loop keeps it at 1. -/
theorem drawRows_vf_stays (ram : Nat → Nat) (I orgX : Nat) :
    ∀ rem i Y disp, (drawRows ram I orgX rem i Y disp 1).2 = 1 := by
  intro rem
  induction rem with
  | zero => intro i Y disp; rfl
  | succ rem ih =>
    intro i Y disp
    rw [drawRows]
    have hp := drawRow_vf_stays (ram (I + i) % 256) Y 7 orgX disp
    by_cases hbr : Y + 1 ≥ 32
    · rw [if_pos hbr]; exact hp
    · rw [if_neg hbr, hp]; exact ih (i + 1) (Y + 1) _

/-- In the unclipped case a set sprite bit over a lit cell in any processed
row drives the collision flag to 1. -/
theorem drawRows_vf_hit (ram : Nat → Nat) (I orgX : Nat) :
    ∀ rem i Y disp vf r t, Y + rem ≤ 32 → orgX + 7 ≤ 63 → r < rem → t ≤ 7 →
      Nat.testBit (ram (I + i + r) % 256) (7 - t) = true →
      disp ((Y + r) * 64 + orgX + t) = true →
      (drawRows ram I orgX rem i Y disp vf).2 = 1 := by
  intro rem
  induction rem with
  | zero => intro i Y disp vf r t _ _ hr _ _ _; omega
  | succ rem ih =>
    intro i Y disp vf r t hY hX hr ht hbit hd
    rw [drawRows]
    by_cases hbr : Y + 1 ≥ 32
    · rw [if_pos hbr]
      have hr0 : r = 0 := by omega
      subst hr0
      simp only [Nat.add_zero] at hbit hd
      exact drawRow_vf_hit _ Y 7 orgX t disp vf (by omega) ht hbit hd
    · rw [if_neg hbr]
      match r with
      | 0 =>
        simp only [Nat.add_zero] at hbit hd
        rw [drawRow_vf_hit _ Y 7 orgX t disp vf (by omega) ht hbit hd]
        exact drawRows_vf_stays ram I orgX rem (i + 1) (Y + 1) _
      | r + 1 =>
        refine ih (i + 1) (Y + 1) _ _ r t (by omega) hX (by omega) ht ?_ ?_
        · have heq2 : I + (i + 1) + r = I + i + (r + 1) := by omega
          rw [heq2]; exact hbit
        · rw [drawRow_out _ Y 7 orgX disp vf _ (by omega)]
          have heq1 : (Y + 1 + r) * 64 + orgX + t = (Y + (r + 1)) * 64 + orgX + t := by
            omega
          rw [heq1]; exact hd

/-- With no set sprite bit over a lit cell anywhere in the unclipped
windows, the row loop leaves the collision flag alone. -/
theorem drawRows_vf_miss (ram : Nat → Nat) (I orgX : Nat) :
    ∀ rem i Y disp vf,
      (∀ r, r < rem → ∀ t, t ≤ 7 →
        ¬(Nat.testBit (ram (I + i + r) % 256) (7 - t) = true ∧
          disp ((Y + r) * 64 + orgX + t) = true)) →
      (drawRows ram I orgX rem i Y disp vf).2 = vf := by
  intro rem
  induction rem with
  | zero => intro i Y disp vf _; rfl
  | succ rem ih =>
    intro i Y disp vf h
    rw [drawRows]
    have hstep : (drawRow (ram (I + i) % 256) Y orgX 7 disp vf).2 = vf := by
      refine drawRow_vf_miss _ Y 7 orgX disp vf ?_
      intro t ht hc
      have h0 := h 0 (by omega) t ht
      simp only [Nat.add_zero] at h0
      exact h0 hc
    by_cases hbr : Y + 1 ≥ 32
    · rw [if_pos hbr]; exact hstep
    · rw [if_neg hbr, hstep]
      refine ih (i + 1) (Y + 1) _ vf ?_
      intro r hr t ht hc
      rcases hc with ⟨hb, hd⟩
      rw [drawRow_out _ Y 7 orgX disp vf _ (by omega)] at hd
      refine h (r + 1) (by omega) t ht ⟨?_, ?_⟩
      · have heq2 : I + i + (r + 1) = I + (i + 1) + r := by omega
        rw [heq2]; exact hb
      · have heq1 : (Y + (r + 1)) * 64 + orgX + t = (Y + 1 + r) * 64 + orgX + t := by
          omega
        rw [heq1]; exact hd

/-- A non-zero byte has a set bit in positions 0 to 7. -/
theorem byte_has_bit (v : Nat) (hv : v < 256) (hnz : v ≠ 0) :
    ∃ b, b ≤ 7 ∧ Nat.testBit v b = true := by
  rcases Nat.ne_zero_implies_bit_true hnz with ⟨b, hb⟩
  refine ⟨b, ?_, hb⟩
  by_contra hb7
  have hlt : v < 2 ^ b := by
    calc v < 256 := hv
    _ = 2 ^ 8 := by norm_num
    _ ≤ 2 ^ b := Nat.pow_le_pow_right (by norm_num) (by omega)
  rw [Nat.testBit_lt_two_pow hlt] at hb
  exact Bool.false_ne_true hb

/-- XOR by the same bit twice is the identity. -/
theorem xor_xor_cancel (a b : Bool) : xor (xor a b) b = a := by
  cases a <;> cases b <;> rfl

/-- The postcondition of the amended double-draw law: after the second
draw the whole display equals the display before the first draw, and the
collision flag holds 1. -/
def DoubleDrawPost (s t2 : Chip8) : Prop :=
  t2.display = s.display ∧ t2.V 15 = 1

/-- C5 (amended): executing the same DXYN twice in succession, when the
sprite has a set bit in its N rows, the coordinate and index registers are
not the flag register (so they are unchanged between draws), the draw is
free of clipping, and the drawn region starts all-off, restores the
display exactly and leaves the collision flag at 1 after the second
draw. -/
theorem c5_double_draw_amended (s : Chip8) (X Y N : Nat) (rnd rnd2 : Nat)
    (hX : X < 16) (hY : Y < 16) (hXF : X ≠ 15) (hYF : Y ≠ 15) (hN : N < 16)
    (hclipX : s.V X % 256 % 64 + 7 ≤ 63)
    (hclipY : s.V Y % 256 % 32 + N ≤ 32)
    (hoff : ∀ r, r < N → ∀ t, t ≤ 7 →
      s.display ((s.V Y % 256 % 32 + r) * 64 + s.V X % 256 % 64 + t) = false)
    (hnz : ∃ r, r < N ∧ s.ram (s.I + r) % 256 ≠ 0) :
    DoubleDrawPost s
      (execute rnd2 ((208 + X) * 256 + (16 * Y + N))
        (execute rnd ((208 + X) * 256 + (16 * Y + N)) s)) := by
  have h1 : ((208 + X) * 256 + (16 * Y + N)) / 4096 % 16 = 13 := by omega
  have h2 : ((208 + X) * 256 + (16 * Y + N)) % 16 = N := by omega
  have h3 : ((208 + X) * 256 + (16 * Y + N)) / 256 % 16 = X := by omega
  have h4 : ((208 + X) * 256 + (16 * Y + N)) / 16 % 16 = Y := by omega
  have hxx : s.V X % 256 % 64 = s.V X % 64 := Nat.mod_mod_of_dvd _ (by norm_num)
  have hyy : s.V Y % 256 % 32 = s.V Y % 32 := Nat.mod_mod_of_dvd _ (by norm_num)
  rw [hxx] at hclipX
  rw [hyy] at hclipY
  simp only [hxx, hyy] at hoff
  have h15X : (15 : Nat) ≠ X := fun h => hXF h.symm
  simp only [DoubleDrawPost, execute, h1, h2, h3, h4]
  norm_num [updf, h15X, hXF, hYF]
  constructor
  · -- the display is restored exactly
    funext k
    by_cases hreg : ∃ r, r < N ∧ ∃ t, t ≤ 7 ∧
        k = (s.V Y % 32 + r) * 64 + s.V X % 64 + t
    · obtain ⟨r, hr, t, ht, hk⟩ := hreg
      subst hk
      rw [drawRows_in s.ram s.I (s.V X % 64) N 0 (s.V Y % 32) _ 0 r t
        (by omega) (by omega) hr ht]
      rw [drawRows_in s.ram s.I (s.V X % 64) N 0 (s.V Y % 32) s.display 0 r t
        (by omega) (by omega) hr ht]
      exact xor_xor_cancel _ _
    · push_neg at hreg
      have hout : ∀ q, q < N →
          k < (s.V Y % 32 + q) * 64 + s.V X % 64 ∨
          (s.V Y % 32 + q) * 64 + s.V X % 64 + 7 < k := by
        intro q hq
        by_contra hcon
        push_neg at hcon
        exact hreg q hq (k - ((s.V Y % 32 + q) * 64 + s.V X % 64)) (by omega) (by omega)
      rw [drawRows_out s.ram s.I (s.V X % 64) N 0 (s.V Y % 32) _ 0 k hout]
      rw [drawRows_out s.ram s.I (s.V X % 64) N 0 (s.V Y % 32) s.display 0 k hout]
  · -- the second draw collides
    obtain ⟨r, hr, hbyte⟩ := hnz
    obtain ⟨b, hb7, hbit⟩ := byte_has_bit (s.ram (s.I + r) % 256)
      (Nat.mod_lt _ (by norm_num)) hbyte
    refine drawRows_vf_hit s.ram s.I (s.V X % 64) N 0 (s.V Y % 32) _ 0 r (7 - b)
      (by omega) (by omega) hr (by omega) ?_ ?_
    · have h5 : 7 - (7 - b) = b := by omega
      rw [h5]
      simpa using hbit
    · rw [drawRows_in s.ram s.I (s.V X % 64) N 0 (s.V Y % 32) s.display 0 r (7 - b)
        (by omega) (by omega) hr (by omega)]
      rw [hoff r hr (7 - b) (by omega)]
      have h5 : 7 - (7 - b) = b := by omega
      rw [h5]
      simpa using hbit

/-- A machine whose program is one DXYN draw with a one-pixel sprite. -/
def c5State : Chip8 :=
  { emptyChip8 with I := 600, ram := fun k => if k = 600 then 0x80 else 0 }

/-- Witness for C5 at a concrete state and instruction fields. -/
theorem c5_double_draw_amended_witness :
    DoubleDrawPost c5State
      (execute 0 ((208 + 0) * 256 + (16 * 1 + 1))
        (execute 0 ((208 + 0) * 256 + (16 * 1 + 1)) c5State)) :=
  c5_double_draw_amended c5State 0 1 1 0 0 (by decide) (by decide) (by decide)
    (by decide) (by decide) (by decide) (by decide)
    (fun r _ t _ => rfl) ⟨0, by decide, by decide⟩

/-- A machine about to draw a one-pixel sprite twice at the top-left
corner of a display whose only lit cell is that very pixel. -/
def c5CexA : Chip8 :=
  { emptyChip8 with
    PC := 512
    I := 600
    ram := fun k =>
      if k = 512 then 0xD0 else if k = 513 then 0x11 else
      if k = 514 then 0xD0 else if k = 515 then 0x11 else
      if k = 600 then 0x80 else 0
    display := fun k => k == 0
    state := EmuState.RUNNING }

/-- A machine about to draw, twice, a non-zero sprite whose only set bit
is entirely clipped off at the right edge, over an all-off display. -/
def c5CexB : Chip8 :=
  { emptyChip8 with
    PC := 512
    I := 600
    ram := fun k =>
      if k = 512 then 0xD0 else if k = 513 then 0x11 else
      if k = 514 then 0xD0 else if k = 515 then 0x11 else
      if k = 600 then 0x01 else 0
    V := fun i => if i = 0 then 63 else 0
    state := EmuState.RUNNING }

/-- Counterexample for C5 as stated: in both runs the same non-zero-sprite
DXYN executes twice in succession with coordinate registers and I
unchanged between the draws, the display region is restored, and yet the
collision flag after the second draw is 0, not 1 — in the first machine
because the drawn cell was lit before the first draw, in the second
because the set sprite bit is clipped off. -/
theorem c5_second_draw_vf_zero :
    (emulate_chip8 0 (emulate_chip8 0 c5CexA)).V 15 = 0 ∧
    (emulate_chip8 0 (emulate_chip8 0 c5CexA)).display 0 = c5CexA.display 0 ∧
    (emulate_chip8 0 (emulate_chip8 0 c5CexB)).V 15 = 0 ∧
    (emulate_chip8 0 (emulate_chip8 0 c5CexB)).display 63 = c5CexB.display 63 := by
  refine ⟨by decide, by decide, by decide, by decide⟩

/-- A running machine whose next instruction is FX0A (F00A) with every key
up. -/
def c1State : Chip8 :=
  { emptyChip8 with
    PC := 512
    ram := fun k => if k = 512 then 0xF0 else if k = 513 then 0x0A else 0
    state := EmuState.RUNNING }

/-- The same machine with keys 3 and 7 down. -/
def c1StateKey : Chip8 :=
  { c1State with keypad := fun k => k == 3 || k == 7 }

/-- C1 evidence: executing FX0A with no key down leaves PC advanced past
the instruction (514, not rewound to 512) and stores nothing, because the
key_pressed flag of the source is initialised to true and never becomes
false, so the PC rewind is dead code; the spec and the code comment both
call for the rewind.  With keys down, the lowest index is stored and PC
advances, as the claim states. -/
theorem c1_fx0a_no_key_pc_advances :
    (emulate_chip8 0 c1State).PC = 514 ∧
    (emulate_chip8 0 c1State).V = c1State.V ∧
    ¬ (emulate_chip8 0 c1State).PC = 512 ∧
    (emulate_chip8 0 c1StateKey).PC = 514 ∧
    (emulate_chip8 0 c1StateKey).V 0 = 3 := by
  refine ⟨by decide, rfl, by decide, by decide, by decide⟩

/-- A running machine with 12 return addresses already stacked whose next
instruction is 2ABC. -/
def c2Over : Chip8 :=
  { emptyChip8 with
    PC := 512
    sp := 12
    ram := fun k => if k = 512 then 0x2A else if k = 513 then 0xBC else 0
    state := EmuState.RUNNING }

/-- A running machine with an empty stack whose next instruction is 00EE. -/
def c2Under : Chip8 :=
  { emptyChip8 with
    PC := 512
    sp := 0
    ram := fun k => if k = 512 then 0x00 else if k = 513 then 0xEE else 0
    state := EmuState.RUNNING }

/-- C2 evidence: with the stack at capacity 12, 2NNN stores the return
address at offset 12 — one past the end of the 12-entry array — and moves
the stack pointer to 13, then jumps, with no failure raised; with the
stack empty, 00EE moves the stack pointer to offset -1 and loads PC from
below the array base.  Neither guard the spec requires exists. -/
theorem c2_stack_no_guard :
    (emulate_chip8 0 c2Over).sp = 13 ∧
    (emulate_chip8 0 c2Over).stack 12 = 514 ∧
    (emulate_chip8 0 c2Over).PC = 0xABC ∧
    (emulate_chip8 0 c2Under).sp = -1 ∧
    (emulate_chip8 0 c2Under).PC = c2Under.stack (-1) % 65536 := by
  refine ⟨by decide, by decide, by decide, by decide, by decide⟩

/-- The font table of init_chip8 (16 glyphs, 5 bytes each). -/
def font : List Nat :=
  [0xF0, 0x90, 0x90, 0x90, 0xF0,
   0x20, 0x60, 0x20, 0x20, 0x70,
   0xF0, 0x10, 0xF0, 0x80, 0xF0,
   0xF0, 0x10, 0xF0, 0x10, 0xF0,
   0x90, 0x90, 0xF0, 0x10, 0x10,
   0xF0, 0x80, 0xF0, 0x10, 0xF0,
   0xF0, 0x80, 0xF0, 0x90, 0xF0,
   0xF0, 0x10, 0x20, 0x40, 0x40,
   0xF0, 0x90, 0xF0, 0x90, 0xF0,
   0xF0, 0x90, 0xF0, 0x10, 0xF0,
   0xF0, 0x90, 0xF0, 0x90, 0x90,
   0xE0, 0x90, 0xE0, 0x90, 0xE0,
   0xF0, 0x80, 0x80, 0x80, 0xF0,
   0xE0, 0x90, 0x90, 0x90, 0xE0,
   0xF0, 0x80, 0xF0, 0x80, 0xF0,
   0xF0, 0x80, 0xF0, 0x80, 0x80]

/-- Failure modes of init_chip8 after the ROM file was opened: the size
check, and the fread result check. -/
inductive LoadError where
  | tooBig
  | readFail
deriving DecidableEq

/-- Copy a byte list into the memory map starting at the given base. -/
def loadList : Nat → (Nat → Nat) → List Nat → Nat → Nat
  | _, ram, [] => ram
  | base, ram, b :: rest =>
    loadList (base + 1) (fun k => if k = base then b % 256 else ram k) rest

/-- init_chip8 on an already-read byte sequence: load the font at address
0, reject images longer than 4096 - 512 bytes, then read the image to
address 512 with a single fread of rom.length bytes whose result must be
one complete element.  By the C standard fread returns 0 when its size
argument is 0, so a zero-length image fails the != 1 check and init_chip8
reports a read failure. -/
def init_chip8 (rom : List Nat) : Except LoadError Chip8 :=
  let ram1 := loadList 0 emptyChip8.ram font
  if rom.length > 4096 - 512 then Except.error LoadError.tooBig
  else if rom.length = 0 then Except.error LoadError.readFail
  else Except.ok { emptyChip8 with
    ram := loadList 512 ram1 rom
    PC := 512
    sp := 0
    state := EmuState.RUNNING }

/-- Cells outside the copied window keep their value. -/
theorem loadList_out : ∀ (l : List Nat) (base : Nat) (ram : Nat → Nat) (k : Nat),
    (k < base ∨ base + l.length ≤ k) → loadList base ram l k = ram k := by
  intro l
  induction l with
  | nil => intro base ram k _; rfl
  | cons b rest ih =>
    intro base ram k hk
    show loadList (base + 1) _ rest k = ram k
    simp only [List.length_cons] at hk
    rw [ih (base + 1) _ k (by omega)]
    have hkb : k ≠ base := by omega
    simp [hkb]

/-- Cell base + i of the copied window holds byte i of the list. -/
theorem loadList_in : ∀ (l : List Nat) (base i : Nat) (ram : Nat → Nat),
    i < l.length → loadList base ram l (base + i) = l.getD i 0 % 256 := by
  intro l
  induction l with
  | nil => intro base i ram hi; simp at hi
  | cons b rest ih =>
    intro base i ram hi
    match i with
    | 0 =>
      show loadList (base + 1) _ rest (base + 0) = b % 256
      rw [loadList_out rest (base + 1) _ (base + 0) (by omega)]
      simp
    | i + 1 =>
      show loadList (base + 1) _ rest (base + (i + 1)) = (b :: rest).getD (i + 1) 0 % 256
      rw [List.getD_cons_succ]
      have h2 : base + (i + 1) = base + 1 + i := by omega
      rw [h2]
      refine ih (base + 1) i _ ?_
      simp only [List.length_cons] at hi
      omega

/-- Counterexample for C3 as stated: loading the empty image does not
succeed; the fread check rejects it with a read failure. -/
theorem c3_empty_rom_fails : init_chip8 [] = Except.error LoadError.readFail := by
  rfl

/-- The amended load contract: too-large images fail with the size error,
the empty image fails with a read error, and images of length 1 to 3584
load verbatim at 512 with the font region intact. -/
def LoadPost (rom : List Nat) : Prop :=
  (rom.length > 3584 → init_chip8 rom = Except.error LoadError.tooBig) ∧
  (rom.length = 0 → init_chip8 rom = Except.error LoadError.readFail) ∧
  (1 ≤ rom.length → rom.length ≤ 3584 →
    ∃ c, init_chip8 rom = Except.ok c ∧
      (∀ i, i < rom.length → c.ram (512 + i) = rom.getD i 0) ∧
      (∀ k, k < 80 → c.ram k = font.getD k 0) ∧
      c.PC = 512)

/-- C3 (amended): loading fails with the size error exactly when the image
exceeds 3584 bytes; lengths 1 to 3584 load the bytes verbatim at address
512 and leave the font at addresses 0 to 0x4F intact; the empty image is
rejected by the fread result check rather than loaded. -/
theorem c3_load_contract_amended (rom : List Nat)
    (hb : ∀ b ∈ rom, b < 256) : LoadPost rom := by
  refine ⟨?_, ?_, ?_⟩
  · intro hlen
    simp only [init_chip8]
    rw [if_pos (by omega)]
  · intro hlen
    simp only [init_chip8]
    rw [if_neg (by omega), if_pos hlen]
  · intro hlen1 hlen2
    simp only [init_chip8]
    rw [if_neg (by omega), if_neg (by omega)]
    refine ⟨_, rfl, ?_, ?_, rfl⟩
    · intro i hi
      show loadList 512 (loadList 0 emptyChip8.ram font) rom (512 + i) = rom.getD i 0
      rw [loadList_in rom 512 i _ hi]
      have hmem : rom.getD i 0 ∈ rom := by
        rw [List.getD_eq_getElem rom 0 hi]
        exact List.getElem_mem hi
      have hlt := hb _ hmem
      omega
    · intro k hk
      show loadList 512 (loadList 0 emptyChip8.ram font) rom k = font.getD k 0
      rw [loadList_out rom 512 _ k (by omega)]
      have hkf : k < font.length := by
        have h80 : font.length = 80 := by rfl
        omega
      have hin := loadList_in font 0 k emptyChip8.ram hkf
      simp only [Nat.zero_add] at hin
      rw [hin]
      have hfont : ∀ j, j < 80 → font.getD j 0 < 256 := by decide
      have := hfont k hk
      omega

/-- Witness for C3 at a concrete two-byte image. -/
theorem c3_load_contract_amended_witness : LoadPost [0xAB, 0xCD] :=
  c3_load_contract_amended [0xAB, 0xCD] (by decide)

end Chip8Emu
